import Mathlib

/-!
Shallow embedding of the deduplication core of the google_takeout_fix
repository (dedup_deep.py, guardrail.py, verify_dedup.py).  Manifest rows
become the `Row` structure; file-system and decoder effects (existence
tests, pixel comparison, frame reads, hash primitives) become explicit
function parameters.  Python floats are modelled as rationals.
-/

/-- Numeric value of a Python boolean when compared inside a tuple key
(False is 0, True is 1). -/
def bnum (b : Bool) : Nat := if b then 1 else 0

/-- Python substring test `needle in hay`, over the character lists. -/
def containsSub (needle hay : String) : Bool :=
  let n := needle.toList
  let h := hay.toList
  (List.range (h.length + 1)).any (fun i => List.take n.length (List.drop i h) == n)

/-- Left zero padding, mirroring the Python zero-padded width-4 decimal format. -/
def zfill (w : Nat) (s : String) : String :=
  String.mk (List.replicate (w - s.length) '0') ++ s

/-- Cluster identifier built by assign_groups, Python builds it from the literal group_ and the padded counter. -/
def gidStr (cnt : Nat) : String := "group_" ++ zfill 4 (toString cnt)

/-- Python str.strip(): drop leading and trailing whitespace.  Stated over
the character list so that it reduces by structural recursion. -/
def pyStrip (s : String) : String :=
  String.mk (((s.toList.dropWhile Char.isWhitespace).reverse.dropWhile
    Char.isWhitespace).reverse)

/-- Python str.lower(), per-character, over the character list. -/
def pyLower (s : String) : String := String.mk (s.toList.map Char.toLower)

/-!
dedup_deep.toLocal composed with pathlib Path identity is the
normalisation that the keeper comparison mp == bp of assign_groups really
applies to a raw media_path string.  It strips whitespace, and Path
construction further collapses single-dot segments and duplicate or mixed
separators, folds case on Windows, and under WSL rewrites either case of
a drive letter to the same /mnt mount.  Which of these identifications
hold depends on the host platform, so the embedding passes the whole
normalisation in as a function parameter named toLocal, exactly like the
other environment effects.
-/

/-- One manifest row (a Python CSV dict).  Only the fields read or written
by the dedup core are modelled; all are strings exactly as in the CSV. -/
structure Row where
  media_path : String := ""
  original_media : String := ""
  json_filename : String := ""
  dedup_group_id : String := ""
  delete_flag : String := ""
  duplicate_of : String := ""
  dedup_reason : String := ""
  visual_review_path : String := ""
  deletion_status : String := ""
  content_sha1 : String := ""
  phash64 : String := ""
  hash_mtime : String := ""
  duration : String := ""
deriving DecidableEq

/-- Python `bool(r.get("json_filename"))`: a non-empty sidecar name. -/
def hasJson (r : Row) : Bool := !(r.json_filename == "")

/-- Python `not any(s in nm for s in ["(1)","_1","copy","edited"])` over the
lower-cased original_media name. -/
def cleanName (r : Row) : Bool :=
  let nm := pyLower r.original_media
  !(containsSub "(1)" nm || containsSub "_1" nm ||
    containsSub "copy" nm || containsSub "edited" nm)

/-- Length of the lower-cased original_media name. -/
def nameLen (r : Row) : Nat := (pyLower r.original_media).length

/-- Strict comparison of the Python score tuples
`(hasj, clean, -len(nm))` of dedup_deep.best_candidate.score: lexicographic,
with the negated length turning into a reversed length comparison. -/
def scoreGtB (a b : Row) : Bool :=
  (decide (bnum (hasJson b) < bnum (hasJson a))) ||
  (hasJson a == hasJson b &&
    ((decide (bnum (cleanName b) < bnum (cleanName a))) ||
     (cleanName a == cleanName b && decide (nameLen a < nameLen b))))

/-- One step of Python `max(group, key=score)`: the running maximum is
replaced only by a strictly greater element, so the first maximum wins. -/
def pick (acc r : Row) : Row := if scoreGtB r acc then r else acc

/-- Python `max(group, key=score)` on a non-empty list given as head/tail. -/
def bestFold (u : Row) (us : List Row) : Row := us.foldl pick u

/-- dedup_deep.best_candidate; `none` corresponds to `max` raising on an
empty group (never reached by assign_groups, which requires size 2). -/
def best_candidate : List Row → Option Row
  | [] => none
  | u :: us => some (bestFold u us)

/-- Key list of a Python dict built by insertion: first-occurrence order,
each key once.  `seen` carries the keys already emitted. -/
def dedupKeysAux (seen : List String) : List String → List String
  | [] => []
  | x :: xs => if x ∈ seen then dedupKeysAux seen xs else x :: dedupKeysAux (x :: seen) xs

/-- Keys of `{r["media_path"]: r for r in grp}` in insertion order. -/
def dedupKeys (l : List String) : List String := dedupKeysAux [] l

/-- Value stored under key `k` by the dict comprehension: the last row of
the group with that media_path. -/
def lastWith (k : String) (l : List Row) : Option Row :=
  (l.filter (fun r => r.media_path == k)).getLast?

/-- Python `list({r["media_path"]: r for r in grp}.values())`: one row per
distinct media_path, last row wins, keys in first-occurrence order. -/
def uniqBy (l : List Row) : List Row :=
  (dedupKeys (l.map (fun r => r.media_path))).filterMap (fun k => lastWith k l)

/-- Field updates applied by the assign_groups loop body to one member of a
retained group.  `review` models the copy into the review directory (the
string written to visual_review_path, empty on copy failure); `toLocal`
is the platform path normalisation described above, whose equality kernel
is the Path comparison mp == bp of the source. -/
def markRow (toLocal : String → String) (gid : String) (best : Row)
    (review : String → String → String) (r : Row) : Row :=
  let keeper := toLocal r.media_path == toLocal best.media_path
  { r with
    dedup_group_id := gid,
    delete_flag := if keeper then "false" else "true",
    duplicate_of := if keeper then "" else best.original_media,
    dedup_reason := if keeper then "best_candidate" else "phash",
    visual_review_path := review gid r.media_path }

/-- dedup_deep.assign_groups, with the group counter made explicit.  Groups
whose media_path-deduplicated membership is smaller than 2 are skipped and
do not advance the counter. -/
def assign_groups_aux (toLocal : String → String) (review : String → String → String)
    (cnt : Nat) : List (String × List Row) → List Row
  | [] => []
  | (_, grp) :: rest =>
    let uniq := uniqBy grp
    if uniq.length < 2 then assign_groups_aux toLocal review cnt rest
    else
      match uniq with
      | [] => assign_groups_aux toLocal review cnt rest
      | u :: us =>
        (u :: us).map (markRow toLocal (gidStr cnt) (bestFold u us) review) ++
          assign_groups_aux toLocal review (cnt + 1) rest

/-- dedup_deep.assign_groups: the output list `out`, the concatenation of
the per-cluster row blocks. -/
def assign_groups (toLocal : String → String) (review : String → String → String)
    (grps : List (String × List Row)) : List Row :=
  assign_groups_aux toLocal review 0 grps

/-- The same recursion as assign_groups_aux, but keeping the per-cluster
blocks separate instead of concatenating them. -/
def assign_groups_blocks (toLocal : String → String) (review : String → String → String)
    (cnt : Nat) : List (String × List Row) → List (List Row)
  | [] => []
  | (_, grp) :: rest =>
    let uniq := uniqBy grp
    if uniq.length < 2 then assign_groups_blocks toLocal review cnt rest
    else
      match uniq with
      | [] => assign_groups_blocks toLocal review cnt rest
      | u :: us =>
        (u :: us).map (markRow toLocal (gidStr cnt) (bestFold u us) review) ::
          assign_groups_blocks toLocal review (cnt + 1) rest

/-- dedup_deep.PIXEL_DIFF_THRESHOLD. -/
def PIXEL_DIFF_THRESHOLD : Rat := 3

/-- dedup_deep.pixel_diff.  `ex` is Path.exists and `inner` the mean
absolute pixel difference of the two decoded images (a file-system and
decoder effect, passed in as functions). -/
def pixel_diff (ex : String → Bool) (inner : String → String → Rat) (a b : String) : Rat :=
  if !(ex a) || !(ex b) then 255 else inner a b

/-- Effect of one dedup_deep.guardrail loop iteration on one row. -/
def guardStep (toLocal : String → String) (ex : String → Bool)
    (inner : String → String → Rat) (r : Row) : Row :=
  if pyLower r.delete_flag != "true" then r
  else
    let k := toLocal r.duplicate_of
    let m := toLocal r.media_path
    if ex k && ex m && decide (PIXEL_DIFF_THRESHOLD < pixel_diff ex inner k m) then
      { r with delete_flag := "false", dedup_reason := "guardrail_uncertain" }
    else r

/-- dedup_deep.guardrail: the in-place row mutations of the loop, as a map
(log writing has no effect on the rows). -/
def guardrail (toLocal : String → String) (ex : String → Bool)
    (inner : String → String → Rat) (rows : List Row) : List Row :=
  rows.map (guardStep toLocal ex inner)

/-- Frame indices sampled by dedup_deep.vid_sha1:
`[int(cnt*f) for f in (0.1,0.5,0.9) if cnt>0]`, already sorted; the float
products are modelled by truncated rational arithmetic. -/
def sampleIdx (cnt : Nat) : List Nat :=
  if 0 < cnt then [cnt / 10, cnt / 2, cnt * 9 / 10] else []

/-- dedup_deep.vid_sha1, modelled up to the SHA-1 digest: the returned
value is the list of PNG blobs whose concatenation is hashed.  `opened` is
cap.isOpened(), `readAt i` the blob obtained from cap.read() after seeking
to frame i (none when the read fails), `readFresh0` the blob read at frame
0 from the freshly re-opened capture of the fallback branch. -/
def vid_frames (opened : Bool) (cnt : Nat) (readAt : Nat → Option (List Nat))
    (readFresh0 : Option (List Nat)) : Except String (List (List Nat)) :=
  if !opened then Except.error "Cannot open video"
  else
    let blobs := (sampleIdx cnt).filterMap readAt
    let blobs2 :=
      if blobs.isEmpty && decide (0 < cnt) then
        match readFresh0 with
        | some b => [b]
        | none => []
      else blobs
    Except.ok blobs2

/-- The byte string dedup_deep.vid_sha1 feeds to sha1_bytes:
`b"".join(blobs)`.  The digest itself is a black-box injective primitive, so
the model keeps its preimage. -/
def vid_sha1_pre (opened : Bool) (cnt : Nat) (readAt : Nat → Option (List Nat))
    (readFresh0 : Option (List Nat)) : Except String (List Nat) :=
  (vid_frames opened cnt readAt readFresh0).map List.flatten

/-- dedup_deep._proc_video, reduced to its skip behaviour: rows whose file
is missing or whose hashing raises are dropped (excluded from clustering);
otherwise the row enters clustering keyed by the hash preimage. -/
def proc_video (pexists opened : Bool) (cnt : Nat) (readAt : Nat → Option (List Nat))
    (readFresh0 : Option (List Nat)) : Option (List Nat) :=
  if !pexists then none
  else
    match vid_sha1_pre opened cnt readAt readFresh0 with
    | Except.error _ => none
    | Except.ok pre => some pre

/-- dedup_deep.needs_hash.  `parse` models Python
`float(row.get(MTIME_COL,0) or 0)` applied to the stored string. -/
def needs_hash (parse : String → Rat) (row : Row) (mtime : Rat) (force : Bool) : Bool :=
  if force then true
  else
    let prev := row.content_sha1
    let prevm := parse row.hash_mtime
    (prev == "") || !(decide (prevm = mtime))

/-- dedup_deep.compute_and_update, returning the (possibly updated) row.
The hash primitives read the file, so their results `imgSha`, `imgPh`,
`vidSha` and the probed duration `dur` are parameters; `fmt` renders
the rounded mtime format of width zero and `fmt3` the three-decimal
duration format. -/
def compute_and_update (parse : String → Rat) (fmt fmt3 : Rat → String) (isImage : Bool)
    (imgSha imgPh vidSha : String) (dur : Option Rat) (row : Row) (mtime : Rat)
    (force : Bool) : Row :=
  if needs_hash parse row mtime force then
    if isImage then
      { row with content_sha1 := imgSha, phash64 := imgPh, hash_mtime := fmt mtime }
    else
      { row with
        content_sha1 := vidSha,
        phash64 := "",
        duration := (match dur with
                     | some d => if d = 0 then "" else fmt3 d
                     | none => ""),
        hash_mtime := fmt mtime }
  else row

namespace GuardrailPy

/-- guardrail.PIXEL_DIFF_THRESHOLD (the widened revision). -/
def PIXEL_DIFF_THRESHOLD : Rat := 10

/-- guardrail.PHASH_DIST_THRESHOLD. -/
def PHASH_DIST_THRESHOLD : Int := 4

/-- Effect of one guardrail.guardrail_pass loop iteration on one row.
`ex` is Path.exists, `pdiff` and `pdist` the pixel difference and the
perceptual-hash Hamming distance of the two decoded images, `raisesE`
whether the comparison raises (the except branch only logs). -/
def gpStep (ex : String → Bool) (pdiff : String → String → Rat)
    (pdist : String → String → Int) (raisesE : String → String → Bool) (dry : Bool)
    (r : Row) : Row :=
  if pyLower r.delete_flag != "true" then r
  else if r.duplicate_of == "" then r
  else
    let orig := pyStrip r.duplicate_of
    let dup := pyStrip r.media_path
    if !(ex orig) || !(ex dup) then r
    else if raisesE orig dup then r
    else if decide (PIXEL_DIFF_THRESHOLD < pdiff orig dup) ||
            decide (PHASH_DIST_THRESHOLD < pdist orig dup) then
      if dry then r
      else { r with delete_flag := "false", dedup_reason := "guardrail_uncertain" }
    else r

/-- guardrail.guardrail_pass: the row mutations of the loop (log lines and
the CSV rewrite do not change any record field beyond gpStep). -/
def guardrail_pass (ex : String → Bool) (pdiff : String → String → Rat)
    (pdist : String → String → Int) (raisesE : String → String → Bool) (dry : Bool)
    (rows : List Row) : List Row :=
  rows.map (gpStep ex pdiff pdist raisesE dry)

end GuardrailPy

namespace VerifyDedup

/-- Row filter of verify_dedup.check_dedup_groups:
`row.get("deletion_status","").strip().lower() != "deleted"`. -/
def alive (r : Row) : Bool := pyLower (pyStrip r.deletion_status) != "deleted"

/-- The distinct non-empty stripped dedup_group_id keys, in the insertion
order of the Python defaultdict. -/
def gidsOf (rows : List Row) : List String :=
  dedupKeys ((rows.filter alive).filterMap (fun r =>
    let g := pyStrip r.dedup_group_id
    if g == "" then none else some g))

/-- The rows grouped under one dedup_group_id key. -/
def clusterRows (gid : String) (rows : List Row) : List Row :=
  (rows.filter alive).filter (fun r => pyStrip r.dedup_group_id == gid)

/-- Issues verify_dedup reports for one group: one when the number of
delete_flag=false members differs from 1, one when the group has fewer
than 2 members. -/
def groupIssues (gid : String) (rows : List Row) : Nat :=
  let g := clusterRows gid rows
  let bests := g.countP (fun r => pyLower r.delete_flag == "false")
  (if bests ≠ 1 then 1 else 0) + (if g.length < 2 then 1 else 0)

/-- verify_dedup.check_dedup_groups, reduced to its aggregate
issues_found count; the source only reads the store and prints. -/
def check_dedup_groups (rows : List Row) : Nat :=
  ((gidsOf rows).map (fun g => groupIssues g rows)).sum

end VerifyDedup

/-! Concrete inputs used to instantiate the theorems below. -/

/-- Review-copy stub: every copy fails, visual_review_path stays empty. -/
def reviewW : String → String → String := fun _ _ => ""

/-- Concrete instantiation of the path normalisation for the examples
below: plain whitespace stripping.  On the concrete strings involved it
computes exactly the Path identity of the source: the stripped forms of
a.jpg with and without a trailing blank name the same path on every
platform, and differ from b.jpg. -/
def toLocalW : String → String := pyStrip

/-- Image row with a sidecar, highest score in its group. -/
def rowW1 : Row := { media_path := "a.jpg", original_media := "a.jpg", json_filename := "a.json" }

/-- Image row without a sidecar. -/
def rowW2 : Row := { media_path := "b.jpg", original_media := "b.jpg" }

/-- One fingerprint group of two distinct assets. -/
def grpsW : List (String × List Row) := [("h1", [rowW1, rowW2])]

/-- The cluster block emitted for grpsW. -/
def blockW : List Row :=
  (uniqBy [rowW1, rowW2]).map (markRow toLocalW (gidStr 0) (bestFold rowW1 [rowW2]) reviewW)

/-- The keeper row of blockW. -/
def keeperW : Row := markRow toLocalW (gidStr 0) (bestFold rowW1 [rowW2]) reviewW rowW1

/-- The flagged duplicate row of blockW. -/
def dupW : Row := markRow toLocalW (gidStr 0) (bestFold rowW1 [rowW2]) reviewW rowW2

/-- Row whose raw media_path carries no trailing whitespace. -/
def rowX1 : Row := { media_path := "a.jpg", original_media := "a.jpg" }

/-- Row whose raw media_path differs from rowX1 only by trailing
whitespace, which the path normalisation strips away. -/
def rowX2 : Row := { media_path := "a.jpg ", original_media := "a.jpg " }

/-- A fingerprint group whose two distinct raw paths normalise to the same
local path. -/
def grpsX : List (String × List Row) := [("h1", [rowX1, rowX2])]

/-- Tie row for the keeper-selection order test: no sidecar, clean name of
length 6. -/
def rowY1 : Row := { media_path := "p1", original_media := "aa.jpg" }

/-- Second tie row: same score triple as rowY1, different identity. -/
def rowY2 : Row := { media_path := "p2", original_media := "bb.jpg" }

/-- File-system stub where every path exists. -/
def exT : String → Bool := fun _ => true

/-- File-system stub where no path exists. -/
def exF : String → Bool := fun _ => false

/-- Pixel-difference stub far above every threshold. -/
def innerHigh : String → String → Rat := fun _ _ => 20

/-- A record flagged for deletion with a keeper reference. -/
def rowG : Row := { media_path := "m.jpg", delete_flag := "true", duplicate_of := "k.jpg" }

/-- rowG after the guardrail clears its flag. -/
def rowGcleared : Row :=
  { rowG with delete_flag := "false", dedup_reason := "guardrail_uncertain" }

/-- A record that was never flagged. -/
def rowF : Row := { media_path := "f.jpg", delete_flag := "false", duplicate_of := "" }

/-- Frame reader for which every seek-and-read fails. -/
def readNoneW : Nat → Option (List Nat) := fun _ => none

/-- Manifest row already hashed, stored hash_mtime rendering 5. -/
def rowM : Row := { media_path := "x.jpg", content_sha1 := "abc", hash_mtime := "5" }

/-- Float parser stub agreeing with the modification time stored in rowM. -/
def parseW : String → Rat := fun _ => 5

/-- Formatter stub. -/
def fmtW : Rat → String := fun _ => "5"

/-- Store with one cluster holding two keepers, for the consistency check. -/
def rowsV : List Row :=
  [ { media_path := "v1.jpg", dedup_group_id := "g1", delete_flag := "false" },
    { media_path := "v2.jpg", dedup_group_id := "g1", delete_flag := "false" } ]

/-- Perceptual-distance stub. -/
def pdistW : String → String → Int := fun _ _ => 0

/-- Comparison-raises stub: nothing raises. -/
def raisesW : String → String → Bool := fun _ _ => false

/-! Helper lemmas about the dict-comprehension model. -/

lemma dedupKeysAux_subset : ∀ (l seen : List String) (x : String),
    x ∈ dedupKeysAux seen l → x ∈ l := by
  intro l
  induction l with
  | nil => intro seen x h; simp [dedupKeysAux] at h
  | cons y ys ih =>
    intro seen x h
    by_cases hy : y ∈ seen
    · simp [dedupKeysAux, hy] at h
      exact List.mem_cons_of_mem _ (ih seen x h)
    · simp [dedupKeysAux, hy] at h
      rcases h with rfl | h
      · exact List.mem_cons_self _ _
      · exact List.mem_cons_of_mem _ (ih (y :: seen) x h)

lemma dedupKeysAux_not_seen : ∀ (l seen : List String) (x : String),
    x ∈ dedupKeysAux seen l → x ∉ seen := by
  intro l
  induction l with
  | nil => intro seen x h; simp [dedupKeysAux] at h
  | cons y ys ih =>
    intro seen x h
    by_cases hy : y ∈ seen
    · simp [dedupKeysAux, hy] at h
      exact ih seen x h
    · simp [dedupKeysAux, hy] at h
      rcases h with rfl | h
      · exact hy
      · intro hx
        exact ih (y :: seen) x h (List.mem_cons_of_mem _ hx)

lemma dedupKeysAux_nodup : ∀ (l seen : List String), (dedupKeysAux seen l).Nodup := by
  intro l
  induction l with
  | nil => intro seen; simp [dedupKeysAux]
  | cons y ys ih =>
    intro seen
    by_cases hy : y ∈ seen
    · simpa [dedupKeysAux, hy] using ih seen
    · simp only [dedupKeysAux, hy, if_false]
      refine List.nodup_cons.2 ⟨?_, ih (y :: seen)⟩
      intro hmem
      exact dedupKeysAux_not_seen ys (y :: seen) y hmem (List.mem_cons_self _ _)

lemma dedupKeysAux_mem : ∀ (l seen : List String) (x : String),
    x ∈ l → x ∉ seen → x ∈ dedupKeysAux seen l := by
  intro l
  induction l with
  | nil => intro seen x h; simp at h
  | cons y ys ih =>
    intro seen x hx hns
    by_cases hy : y ∈ seen
    · rcases List.mem_cons.1 hx with rfl | hx2
      · exact absurd hy hns
      · simpa [dedupKeysAux, hy] using ih seen x hx2 hns
    · rcases List.mem_cons.1 hx with rfl | hx2
      · simp [dedupKeysAux, hy]
      · by_cases hxy : x = y
        · subst hxy; simp [dedupKeysAux, hy]
        · simp only [dedupKeysAux, hy, if_false, List.mem_cons]
          right
          refine ih (y :: seen) x hx2 ?_
          simp [hxy, hns]

lemma dedupKeysAux_length_le : ∀ (l seen : List String),
    (dedupKeysAux seen l).length ≤ l.length := by
  intro l
  induction l with
  | nil => intro seen; simp [dedupKeysAux]
  | cons y ys ih =>
    intro seen
    by_cases hy : y ∈ seen
    · simp only [dedupKeysAux, hy, if_true]
      exact Nat.le_succ_of_le (ih seen)
    · simp only [dedupKeysAux, hy, if_false, List.length_cons]
      exact Nat.succ_le_succ (ih (y :: seen))

lemma dedupKeysAux_all_seen : ∀ (l seen : List String),
    (∀ x ∈ l, x ∈ seen) → dedupKeysAux seen l = [] := by
  intro l
  induction l with
  | nil => intro seen _; rfl
  | cons y ys ih =>
    intro seen h
    have hy : y ∈ seen := h y (List.mem_cons_self _ _)
    simp only [dedupKeysAux, hy, if_true]
    exact ih seen (fun x hx => h x (List.mem_cons_of_mem _ hx))

lemma dedupKeysAux_all_eq : ∀ (l seen : List String) (p : String),
    (∀ x ∈ l, x = p) → (dedupKeysAux seen l).length ≤ 1 := by
  intro l
  induction l with
  | nil => intro seen p _; simp [dedupKeysAux]
  | cons y ys ih =>
    intro seen p h
    have hy : y = p := h y (List.mem_cons_self _ _)
    subst hy
    by_cases hs : y ∈ seen
    · simp only [dedupKeysAux, hs, if_true]
      exact ih seen y (fun x hx => h x (List.mem_cons_of_mem _ hx))
    · simp only [dedupKeysAux, hs, if_false, List.length_cons]
      have : dedupKeysAux (y :: seen) ys = [] := by
        refine dedupKeysAux_all_seen ys (y :: seen) ?_
        intro x hx
        rw [h x (List.mem_cons_of_mem _ hx)]
        exact List.mem_cons_self _ _
      simp [this]

lemma lastWith_path : ∀ (k : String) (l : List Row) (r : Row),
    lastWith k l = some r → r.media_path = k := by
  intro k l r h
  unfold lastWith at h
  have hmem : r ∈ l.filter (fun r => r.media_path == k) := by
    have hopt : r ∈ (l.filter (fun r => r.media_path == k)).getLast? := by
      simp [Option.mem_def, h]
    obtain ⟨hne, rfl⟩ := List.mem_getLast?_eq_getLast hopt
    exact List.getLast_mem hne
  have := List.of_mem_filter hmem
  simpa using this

lemma nodup_map_filterMap (f : String → Option Row) (g : Row → String)
    (hfg : ∀ k r, f k = some r → g r = k) :
    ∀ (keys : List String), keys.Nodup → ((keys.filterMap f).map g).Nodup := by
  intro keys
  induction keys with
  | nil => intro _; simp
  | cons k ks ih =>
    intro hnd
    rcases List.nodup_cons.1 hnd with ⟨hk, hks⟩
    cases hf : f k with
    | none => simpa [List.filterMap_cons, hf] using ih hks
    | some r =>
      simp only [List.filterMap_cons, hf, List.map_cons]
      refine List.nodup_cons.2 ⟨?_, ih hks⟩
      intro hmem
      rcases List.mem_map.1 hmem with ⟨r2, hr2, hgr2⟩
      rcases List.mem_filterMap.1 hr2 with ⟨k2, hk2, hfk2⟩
      have : g r2 = k2 := hfg k2 r2 hfk2
      rw [this] at hgr2
      rw [hfg k r hf] at hgr2
      subst hgr2
      exact hk hk2

lemma uniqBy_paths_nodup (l : List Row) :
    ((uniqBy l).map (fun r => r.media_path)).Nodup := by
  unfold uniqBy
  exact nodup_map_filterMap _ _ (fun k r h => lastWith_path k l r h) _
    (dedupKeysAux_nodup _ [])

lemma uniqBy_length_le (l : List Row) : (uniqBy l).length ≤ l.length := by
  unfold uniqBy
  calc ((dedupKeys (l.map (fun r => r.media_path))).filterMap (fun k => lastWith k l)).length
      ≤ (dedupKeys (l.map (fun r => r.media_path))).length := List.length_filterMap_le _ _
    _ ≤ (l.map (fun r => r.media_path)).length := dedupKeysAux_length_le _ []
    _ = l.length := List.length_map _ _

lemma uniqBy_all_eq (l : List Row) (p : String) (h : ∀ r ∈ l, r.media_path = p) :
    (uniqBy l).length ≤ 1 := by
  unfold uniqBy
  calc ((dedupKeys (l.map (fun r => r.media_path))).filterMap (fun k => lastWith k l)).length
      ≤ (dedupKeys (l.map (fun r => r.media_path))).length := List.length_filterMap_le _ _
    _ ≤ 1 := by
        refine dedupKeysAux_all_eq _ [] p ?_
        intro x hx
        rcases List.mem_map.1 hx with ⟨r, hr, rfl⟩
        exact h r hr

/-! Helper lemmas about the keeper-selection fold. -/

lemma scoreGtB_asymm (a b : Row) (h : scoreGtB a b = true) : scoreGtB b a = false := by
  cases ha : hasJson a <;> cases hb : hasJson b <;>
    cases ca : cleanName a <;> cases cb : cleanName b <;>
      simp_all [scoreGtB, bnum] <;> omega

lemma foldl_pick_mem : ∀ (us : List Row) (acc : Row), us.foldl pick acc ∈ acc :: us := by
  intro us
  induction us with
  | nil => intro acc; simp
  | cons x xs ih =>
    intro acc
    rw [List.foldl_cons]
    have h := ih (pick acc x)
    rcases List.mem_cons.1 h with h1 | h1
    · rw [h1]
      unfold pick
      by_cases hc : scoreGtB x acc = true
      · simp [hc]
      · simp [hc]
    · exact List.mem_cons_of_mem _ (List.mem_cons_of_mem _ h1)

lemma bestFold_mem (u : Row) (us : List Row) : bestFold u us ∈ u :: us :=
  foldl_pick_mem us u

lemma foldl_pick_unique : ∀ (l : List Row) (acc r : Row),
    (∀ s ∈ l, s = r ∨ scoreGtB r s = true) →
    (acc = r ∨ (scoreGtB r acc = true ∧ r ∈ l)) →
    l.foldl pick acc = r := by
  intro l
  induction l with
  | nil =>
    intro acc r _ hacc
    rcases hacc with h | ⟨_, hmem⟩
    · simpa using h
    · simp at hmem
  | cons x xs ih =>
    intro acc r hdom hacc
    rw [List.foldl_cons]
    have hdom2 : ∀ s ∈ xs, s = r ∨ scoreGtB r s = true :=
      fun s hs => hdom s (List.mem_cons_of_mem _ hs)
    apply ih (pick acc x) r hdom2
    rcases hacc with h | ⟨hgt, hmem⟩
    · rcases hdom x (List.mem_cons_self _ _) with h2 | h2
      · left
        rw [h2, h]
        unfold pick
        split <;> rfl
      · left
        rw [h]
        unfold pick
        have h3 := scoreGtB_asymm r x h2
        simp [h3]
    · rcases List.mem_cons.1 hmem with h2 | h2
      · left
        rw [← h2]
        unfold pick
        simp [hgt]
      · rcases hdom x (List.mem_cons_self _ _) with h3 | h3
        · left
          rw [h3]
          unfold pick
          simp [hgt]
        · refine Or.inr ⟨?_, h2⟩
          unfold pick
          by_cases hc : scoreGtB x acc = true
          · simp [hc, h3]
          · simp [hc, hgt]

/-! Helper lemmas about the field updates of assign_groups. -/

lemma markRow_media_path (toLocal : String → String) (gid : String) (best : Row)
    (review : String → String → String) (r : Row) : (markRow toLocal gid best review r).media_path = r.media_path := rfl

lemma markRow_original_media (toLocal : String → String) (gid : String) (best : Row)
    (review : String → String → String) (r : Row) : (markRow toLocal gid best review r).original_media = r.original_media := rfl

lemma markRow_gid (toLocal : String → String) (gid : String) (best : Row)
    (review : String → String → String) (r : Row) : (markRow toLocal gid best review r).dedup_group_id = gid := rfl

lemma markRow_delete_flag (toLocal : String → String) (gid : String) (best : Row)
    (review : String → String → String) (r : Row) : (markRow toLocal gid best review r).delete_flag =
      if toLocal r.media_path == toLocal best.media_path
      then "false" else "true" := rfl

lemma markRow_duplicate_of (toLocal : String → String) (gid : String) (best : Row)
    (review : String → String → String) (r : Row) : (markRow toLocal gid best review r).duplicate_of =
      if toLocal r.media_path == toLocal best.media_path
      then "" else best.original_media := rfl

lemma markRow_dedup_reason (toLocal : String → String) (gid : String) (best : Row)
    (review : String → String → String) (r : Row) : (markRow toLocal gid best review r).dedup_reason =
      if toLocal r.media_path == toLocal best.media_path
      then "best_candidate" else "phash" := rfl

lemma assign_groups_aux_eq_flatten :
    ∀ (grps : List (String × List Row)) (toLocal : String → String)
      (review : String → String → String) (cnt : Nat),
    assign_groups_aux toLocal review cnt grps = (assign_groups_blocks toLocal review cnt grps).flatten := by
  intro grps
  induction grps with
  | nil => intro toLocal review cnt; rfl
  | cons g rest ih =>
    intro toLocal review cnt
    obtain ⟨k, grp⟩ := g
    simp only [assign_groups_aux, assign_groups_blocks]
    by_cases h : (uniqBy grp).length < 2
    · simp [h, ih]
    · simp only [h, if_false]
      cases heq : uniqBy grp with
      | nil => simp [ih]
      | cons u us => simp [ih]

lemma assign_groups_blocks_shape :
    ∀ (grps : List (String × List Row)) (toLocal : String → String)
      (review : String → String → String) (cnt : Nat) (b : List Row), b ∈ assign_groups_blocks toLocal review cnt grps →
    ∃ g ∈ grps, ∃ u us c, uniqBy g.2 = u :: us ∧ 2 ≤ (u :: us).length ∧
      b = (u :: us).map (markRow toLocal (gidStr c) (bestFold u us) review) := by
  intro grps
  induction grps with
  | nil => intro toLocal review cnt b hb; simp [assign_groups_blocks] at hb
  | cons g rest ih =>
    intro toLocal review cnt b hb
    obtain ⟨k, grp⟩ := g
    simp only [assign_groups_blocks] at hb
    by_cases h : (uniqBy grp).length < 2
    · simp only [h, if_true] at hb
      obtain ⟨g2, hg2, rest2⟩ := ih toLocal review cnt b hb
      exact ⟨g2, List.mem_cons_of_mem _ hg2, rest2⟩
    · simp only [h, if_false] at hb
      cases heq : uniqBy grp with
      | nil => rw [heq] at h; simp at h
      | cons u us =>
        rw [heq] at hb
        rcases List.mem_cons.1 hb with rfl | hb2
        · refine ⟨(k, grp), List.mem_cons_self _ _, u, us, cnt, heq, ?_, rfl⟩
          rw [heq] at h
          omega
        · obtain ⟨g2, hg2, rest2⟩ := ih toLocal review (cnt + 1) b hb2
          exact ⟨g2, List.mem_cons_of_mem _ hg2, rest2⟩

lemma assign_groups_blocks_length :
    ∀ (grps : List (String × List Row)) (toLocal : String → String)
      (review : String → String → String) (cnt : Nat),
    (assign_groups_blocks toLocal review cnt grps).length =
      grps.countP (fun g => decide (2 ≤ (uniqBy g.2).length)) := by
  intro grps
  induction grps with
  | nil => intro toLocal review cnt; rfl
  | cons g rest ih =>
    intro toLocal review cnt
    obtain ⟨k, grp⟩ := g
    simp only [assign_groups_blocks]
    by_cases h : (uniqBy grp).length < 2
    · have hp : (decide (2 ≤ (uniqBy grp).length)) = false := by
        simp; omega
      simp [h, List.countP_cons, hp, ih]
    · have hp : (decide (2 ≤ (uniqBy grp).length)) = true := by
        simp; omega
      simp only [h, if_false]
      cases heq : uniqBy grp with
      | nil => rw [heq] at h; simp at h
      | cons u us => simp [List.countP_cons, hp, ih]

lemma assign_groups_blocks_gid :
    ∀ (grps : List (String × List Row)) (toLocal : String → String)
      (review : String → String → String) (cnt i : Nat) (r : Row), r ∈ (assign_groups_blocks toLocal review cnt grps).getD i [] →
      r.dedup_group_id = gidStr (cnt + i) := by
  intro grps
  induction grps with
  | nil => intro toLocal review cnt i r hr; simp [assign_groups_blocks, List.getD] at hr
  | cons g rest ih =>
    intro toLocal review cnt i r hr
    obtain ⟨k, grp⟩ := g
    simp only [assign_groups_blocks] at hr
    by_cases h : (uniqBy grp).length < 2
    · simp only [h, if_true] at hr
      exact ih toLocal review cnt i r hr
    · simp only [h, if_false] at hr
      cases heq : uniqBy grp with
      | nil => rw [heq] at h; simp at h
      | cons u us =>
        rw [heq] at hr
        cases i with
        | zero =>
          simp only [List.getD_cons_zero] at hr
          rcases List.mem_map.1 hr with ⟨s, _, rfl⟩
          simp [markRow_gid]
        | succ j =>
          simp only [List.getD_cons_succ] at hr
          have := ih toLocal review (cnt + 1) j r hr
          rw [this]
          congr 1
          omega

lemma block_one_keeper (toLocal : String → String) (gid : String)
    (review : String → String → String) (u : Row) (us : List Row)
    (hnd : ((u :: us).map (fun r => toLocal r.media_path)).Nodup) :
    ((u :: us).map (markRow toLocal gid (bestFold u us) review)).countP
        (fun r => r.delete_flag == "false") = 1 ∧
    ∀ r ∈ (u :: us).map (markRow toLocal gid (bestFold u us) review),
      (r.delete_flag = "false" → r.dedup_reason = "best_candidate" ∧ r.duplicate_of = "") ∧
      (r.delete_flag ≠ "false" → r.delete_flag = "true" ∧ r.dedup_reason = "phash" ∧
        ∃ k2, k2 ∈ (u :: us).map (markRow toLocal gid (bestFold u us) review) ∧
          k2.delete_flag = "false" ∧ r.duplicate_of = k2.original_media) := by
  have hbm : bestFold u us ∈ u :: us := bestFold_mem u us
  constructor
  · rw [List.countP_map]
    have hfun : ((fun r : Row => r.delete_flag == "false") ∘ markRow toLocal gid (bestFold u us) review)
        = (fun s : Row =>
            toLocal s.media_path == toLocal (bestFold u us).media_path) := by
      funext s
      simp only [Function.comp, markRow_delete_flag]
      by_cases hc :
          (toLocal s.media_path == toLocal (bestFold u us).media_path) = true
      · simp [hc]
      · simp only [Bool.not_eq_true] at hc
        simp [hc]
    rw [hfun]
    have hcnt : (u :: us).countP
          (fun s : Row =>
            toLocal s.media_path == toLocal (bestFold u us).media_path)
        = ((u :: us).map (fun r => toLocal r.media_path)).count
            (toLocal (bestFold u us).media_path) := by
      rw [show ((u :: us).map (fun r => toLocal r.media_path)).count
            (toLocal (bestFold u us).media_path)
          = ((u :: us).map (fun r => toLocal r.media_path)).countP
              (· == toLocal (bestFold u us).media_path) from rfl]
      rw [List.countP_map]
      rfl
    rw [hcnt]
    exact List.count_eq_one_of_mem hnd (List.mem_map_of_mem _ hbm)
  · intro r hr
    obtain ⟨s, hs, rfl⟩ := List.mem_map.1 hr
    by_cases hk :
        (toLocal s.media_path == toLocal (bestFold u us).media_path) = true
    · constructor
      · intro _
        constructor
        · simp [markRow_dedup_reason, hk]
        · simp [markRow_duplicate_of, hk]
      · intro hne
        exact absurd (by simp [markRow_delete_flag, hk]) hne
    · simp only [Bool.not_eq_true] at hk
      constructor
      · intro hf
        rw [markRow_delete_flag, hk] at hf
        simp at hf
      · intro _
        refine ⟨?_, ?_, markRow toLocal gid (bestFold u us) review (bestFold u us),
            List.mem_map_of_mem _ hbm, ?_, ?_⟩
        · simp [markRow_delete_flag, hk]
        · simp [markRow_dedup_reason, hk]
        · simp [markRow_delete_flag]
        · simp [markRow_duplicate_of, hk, markRow_original_media]

/-- C1.  Corrected form.  After assign_groups and before any guardrail
override, every retained cluster block has exactly one member whose
delete_flag is false (the keeper, with dedup_reason best_candidate and
empty duplicate_of), and every other member carries delete_flag true,
dedup_reason phash, and duplicate_of equal to the original_media
of the keeper — provided the local paths of the cluster members, their
media_path images under the platform path normalisation toLocal that the
keeper comparison uses, are pairwise distinct.  The theorem quantifies
over that normalisation; instantiating toLocal with the path identity of
the host yields the program run.  Without the proviso the claim fails,
see the counterexample. -/
theorem C1_canonical_selector_single_keeper
    (toLocal : String → String) (review : String → String → String)
    (grps : List (String × List Row))
    (hinj : ∀ g ∈ grps, ((uniqBy g.2).map (fun r => toLocal r.media_path)).Nodup) :
    assign_groups toLocal review grps = (assign_groups_blocks toLocal review 0 grps).flatten ∧
    ∀ b ∈ assign_groups_blocks toLocal review 0 grps,
      2 ≤ b.length ∧
      b.countP (fun r => r.delete_flag == "false") = 1 ∧
      ∀ r ∈ b,
        (r.delete_flag = "false" → r.dedup_reason = "best_candidate" ∧ r.duplicate_of = "") ∧
        (r.delete_flag ≠ "false" → r.delete_flag = "true" ∧ r.dedup_reason = "phash" ∧
          ∃ k2, k2 ∈ b ∧ k2.delete_flag = "false" ∧
            r.duplicate_of = k2.original_media) := by
  refine ⟨assign_groups_aux_eq_flatten grps toLocal review 0, ?_⟩
  intro b hb
  obtain ⟨g, hg, u, us, c, huniq, hlen, rfl⟩ := assign_groups_blocks_shape grps toLocal review 0 b hb
  have hnd : ((u :: us).map (fun r => toLocal r.media_path)).Nodup := by
    have h := hinj g hg
    rw [huniq] at h
    exact h
  obtain ⟨hcount, hrows⟩ := block_one_keeper toLocal (gidStr c) review u us hnd
  exact ⟨by simpa using hlen, hcount, hrows⟩

/-- Witness for C1: a concrete two-member group whose paths stay distinct
under the normalisation, on which the amended theorem yields exactly one
keeper. -/
theorem C1_witness :
    (∀ g ∈ grpsW, ((uniqBy g.2).map (fun r => toLocalW r.media_path)).Nodup) ∧
    blockW.countP (fun r => r.delete_flag == "false") = 1 :=
  ⟨by decide,
   ((C1_canonical_selector_single_keeper toLocalW reviewW grpsW (by decide)).2 blockW
      (by decide)).2.1⟩

/-- Counterexample for C1 as frozen: two raw media_path strings that
differ only by trailing whitespace survive the per-path dict collapse yet
name the same local path — the normalisation is instantiated with the
whitespace strip, which on these strings agrees with the Path identity of
the source on every platform — so the single retained cluster of two rows
ends with both members keeping delete_flag false. -/
theorem C1_counterexample :
    (assign_groups toLocalW reviewW grpsX).length = 2 ∧
    (assign_groups toLocalW reviewW grpsX).countP (fun r => r.dedup_group_id == gidStr 0) = 2 ∧
    (assign_groups toLocalW reviewW grpsX).countP (fun r => r.delete_flag == "false") = 2 := by
  decide

/-- C2.  Guardrail monotonicity: both dedup_deep.guardrail and
guardrail.guardrail_pass act row-wise; each row either stays unchanged or
only has its delete_flag set to false and its dedup_reason set to
guardrail_uncertain.  Rows whose flag is not the string true (and in
particular rows whose flag is already false) are never touched, so flags
are only ever flipped from true to false. -/
theorem C2_guardrail_monotone
    (toLocal : String → String) (ex : String → Bool) (inner : String → String → Rat)
    (pdiff : String → String → Rat) (pdist : String → String → Int)
    (raisesE : String → String → Bool) (dry : Bool) (rows : List Row) :
    guardrail toLocal ex inner rows = rows.map (guardStep toLocal ex inner) ∧
    GuardrailPy.guardrail_pass ex pdiff pdist raisesE dry rows =
      rows.map (GuardrailPy.gpStep ex pdiff pdist raisesE dry) ∧
    ∀ r ∈ rows,
      (guardStep toLocal ex inner r = r ∨
        guardStep toLocal ex inner r =
          { r with delete_flag := "false", dedup_reason := "guardrail_uncertain" }) ∧
      (pyLower r.delete_flag ≠ "true" → guardStep toLocal ex inner r = r) ∧
      (r.delete_flag = "false" → (guardStep toLocal ex inner r).delete_flag = "false") ∧
      (GuardrailPy.gpStep ex pdiff pdist raisesE dry r = r ∨
        GuardrailPy.gpStep ex pdiff pdist raisesE dry r =
          { r with delete_flag := "false", dedup_reason := "guardrail_uncertain" }) ∧
      (pyLower r.delete_flag ≠ "true" →
        GuardrailPy.gpStep ex pdiff pdist raisesE dry r = r) ∧
      (r.delete_flag = "false" →
        (GuardrailPy.gpStep ex pdiff pdist raisesE dry r).delete_flag = "false") := by
  refine ⟨rfl, rfl, ?_⟩
  intro r _
  have hskip1 : pyLower r.delete_flag ≠ "true" → guardStep toLocal ex inner r = r := by
    intro h
    unfold guardStep
    rw [if_pos (by simpa [bne_iff_ne] using h)]
  have hskip2 : pyLower r.delete_flag ≠ "true" →
      GuardrailPy.gpStep ex pdiff pdist raisesE dry r = r := by
    intro h
    unfold GuardrailPy.gpStep
    rw [if_pos (by simpa [bne_iff_ne] using h)]
  have hfl : pyLower "false" ≠ "true" := by decide
  refine ⟨?_, hskip1, ?_, ?_, hskip2, ?_⟩
  · simp only [guardStep]
    split
    · exact Or.inl rfl
    · split
      · exact Or.inr rfl
      · exact Or.inl rfl
  · intro hf
    rw [hskip1 (by rw [hf]; exact hfl), hf]
  · simp only [GuardrailPy.gpStep]
    split
    · exact Or.inl rfl
    · split
      · exact Or.inl rfl
      · split
        · exact Or.inl rfl
        · split
          · exact Or.inl rfl
          · split
            · split
              · exact Or.inl rfl
              · exact Or.inr rfl
            · exact Or.inl rfl
  · intro hf
    rw [hskip2 (by rw [hf]; exact hfl), hf]

/-- Witness for C2: on a concrete row whose flag is false, both guardrail
passes leave the record untouched. -/
theorem C2_witness :
    (pyLower rowF.delete_flag ≠ "true") ∧
    guardStep toLocalW exT innerHigh rowF = rowF ∧
    GuardrailPy.gpStep exT innerHigh pdistW raisesW false rowF = rowF := by
  have h := (C2_guardrail_monotone toLocalW exT innerHigh innerHigh pdistW raisesW false
    [rowF]).2.2 rowF (by decide)
  exact ⟨by decide, h.2.1 (by decide), h.2.2.2.2.1 (by decide)⟩

/-- C3.  Amended form.  The Canonical Selector is permutation-invariant
whenever one member strictly outranks every other member on the score
triple: that member is returned for every permutation of the cluster.  On
ties the source keeps the first maximal element of the iteration order, so
permutation invariance fails there, see the counterexample. -/
theorem C3_best_candidate_perm_invariant
    (g g2 : List Row) (r : Row) (hmem : r ∈ g)
    (hdom : ∀ s ∈ g, s ≠ r → scoreGtB r s = true)
    (hperm : g.Perm g2) : best_candidate g2 = some r := by
  cases g2 with
  | nil =>
    have h0 : r ∈ ([] : List Row) := hperm.mem_iff.1 hmem
    simp at h0
  | cons u us =>
    have hmem2 : r ∈ u :: us := hperm.mem_iff.1 hmem
    have hdom2 : ∀ s ∈ u :: us, s = r ∨ scoreGtB r s = true := by
      intro s hs
      by_cases hsr : s = r
      · exact Or.inl hsr
      · exact Or.inr (hdom s (hperm.mem_iff.2 hs) hsr)
    have hfold : us.foldl pick u = r := by
      apply foldl_pick_unique us u r (fun s hs => hdom2 s (List.mem_cons_of_mem _ hs))
      by_cases hur : u = r
      · exact Or.inl hur
      · rcases hdom2 u (List.mem_cons_self _ _) with h | h
        · exact absurd h hur
        · refine Or.inr ⟨h, ?_⟩
          rcases List.mem_cons.1 hmem2 with h2 | h2
          · exact absurd h2.symm hur
          · exact h2
    simp [best_candidate, bestFold, hfold]

/-- Witness for C3: the row with a sidecar strictly outranks the other, so
the keeper is stable under swapping the input order. -/
theorem C3_witness :
    (rowW1 ∈ [rowW1, rowW2] ∧
      (∀ s ∈ [rowW1, rowW2], s ≠ rowW1 → scoreGtB rowW1 s = true) ∧
      ([rowW1, rowW2] : List Row).Perm [rowW2, rowW1]) ∧
    best_candidate [rowW2, rowW1] = some rowW1 :=
  ⟨⟨by decide, by decide, by decide⟩,
   C3_best_candidate_perm_invariant [rowW1, rowW2] [rowW2, rowW1] rowW1
     (by decide) (by decide) (by decide)⟩

/-- Counterexample for C3 as frozen: two members tying on all three
ranking criteria.  Swapping the input order changes the selected keeper,
because Python max keeps the first maximal element. -/
theorem C3_counterexample :
    ([rowY1, rowY2] : List Row).Perm [rowY2, rowY1] ∧
    best_candidate [rowY1, rowY2] ≠ best_candidate [rowY2, rowY1] := by
  constructor
  · decide
  · decide

/-- C4.  Amended form.  After assign_groups and before any guardrail
pass, duplicate_of is empty exactly when delete_flag is false, provided
the selected keeper of every retained group has a non-empty original_media.
The equivalence is broken by the Guardrail Verifier, which resets
delete_flag to false while leaving duplicate_of in place, see the
counterexample. -/
theorem C4_keeper_reference_iff
    (toLocal : String → String) (review : String → String → String)
    (grps : List (String × List Row))
    (hne : ∀ g ∈ grps, ∀ b, best_candidate (uniqBy g.2) = some b →
      b.original_media ≠ "") :
    ∀ r ∈ assign_groups toLocal review grps, (r.duplicate_of = "" ↔ r.delete_flag = "false") := by
  intro r hr
  rw [assign_groups, assign_groups_aux_eq_flatten] at hr
  rcases List.mem_flatten.1 hr with ⟨b, hb, hrb⟩
  obtain ⟨g, hg, u, us, c, huniq, _, rfl⟩ := assign_groups_blocks_shape grps toLocal review 0 b hb
  obtain ⟨s, _, rfl⟩ := List.mem_map.1 hrb
  have hbne : (bestFold u us).original_media ≠ "" := by
    apply hne g hg
    rw [huniq]
    rfl
  by_cases hk :
      (toLocal s.media_path == toLocal (bestFold u us).media_path) = true
  · constructor
    · intro _
      simp [markRow_delete_flag, hk]
    · intro _
      simp [markRow_duplicate_of, hk]
  · simp only [Bool.not_eq_true] at hk
    constructor
    · intro hd
      rw [markRow_duplicate_of, hk] at hd
      simp only [Bool.false_eq_true, if_false] at hd
      exact absurd hd hbne
    · intro hf
      rw [markRow_delete_flag, hk] at hf
      simp at hf

/-- Witness for C4: on the concrete two-member cluster, the flagged
duplicate has a non-empty duplicate_of and a non-false flag. -/
theorem C4_witness :
    (∀ g ∈ grpsW, ∀ b, best_candidate (uniqBy g.2) = some b →
      b.original_media ≠ "") ∧
    (dupW.duplicate_of = "" ↔ dupW.delete_flag = "false") :=
  ⟨by decide, C4_keeper_reference_iff toLocalW reviewW grpsW (by decide) dupW (by decide)⟩

/-- Counterexample for C4 as frozen: the guardrail clears the flag of a
record whose keeper is visually too different, producing a record with
delete_flag false and a non-empty duplicate_of, so the claimed
equivalence fails after a guardrail pass. -/
theorem C4_counterexample :
    guardrail toLocalW exT innerHigh [rowG] = [rowGcleared] ∧
    rowGcleared.delete_flag = "false" ∧ rowGcleared.duplicate_of ≠ "" := by
  refine ⟨by decide, rfl, by decide⟩

/-- C5.  Amended form.  The model of vid_sha1: a video that cannot be
opened raises and _proc_video drops it; a video that opens with frame
count 0 is hashed over the empty byte string; when the frame count is
positive and all three sampled reads fail, the single first-frame
fallback is attempted, and when that read also fails the video is still
hashed — over the empty byte string — and still enters clustering,
contrary to the frozen claim that it would be skipped. -/
theorem C5_video_hash_empty_fallback
    (cnt : Nat) (readAt : Nat → Option (List Nat)) (r0 : Option (List Nat)) :
    vid_sha1_pre false cnt readAt r0 = Except.error "Cannot open video" ∧
    proc_video false true cnt readAt r0 = none ∧
    proc_video true false cnt readAt r0 = none ∧
    vid_sha1_pre true 0 readAt r0 = Except.ok [] ∧
    (0 < cnt → (sampleIdx cnt).filterMap readAt = [] →
      vid_sha1_pre true cnt readAt r0 =
        Except.ok (match r0 with
                   | some blob => blob
                   | none => [])) ∧
    (0 < cnt → (sampleIdx cnt).filterMap readAt = [] → r0 = none →
      proc_video true true cnt readAt r0 = some []) := by
  refine ⟨rfl, rfl, rfl,
    by simp [vid_sha1_pre, vid_frames, sampleIdx, Except.map], ?_, ?_⟩
  · intro hc hf
    simp only [vid_sha1_pre, vid_frames, Bool.not_true, hf]
    simp [hc]
    cases r0 <;> simp [Except.map]
  · intro hc hf hr
    subst hr
    simp only [proc_video, vid_sha1_pre, vid_frames, Bool.not_true, hf]
    simp [hc, Except.map]

/-- Witness for C5: with a positive frame count, three failing sampled
reads and a succeeding fresh first-frame read, the hash preimage is that
single fallback frame. -/
theorem C5_witness :
    (0 < 5 ∧ (sampleIdx 5).filterMap readNoneW = []) ∧
    vid_sha1_pre true 5 readNoneW (some [7]) = Except.ok [7] :=
  ⟨⟨by decide, by decide⟩, by
    have h := (C5_video_hash_empty_fallback 5 readNoneW (some [7])).2.2.2.2.1
      (by decide) (by decide)
    simpa using h⟩

/-- Counterexample for C5 as frozen: every read fails on an opened video
with positive frame count; the asset is not skipped and its content hash
is computed over the empty byte string. -/
theorem C5_counterexample :
    vid_sha1_pre true 5 readNoneW none = Except.ok [] ∧
    proc_video true true 5 readNoneW none = some [] :=
  ⟨rfl, rfl⟩

/-- C6.  Fingerprinting idempotence with the modification-time skip: when
force is false, the stored content hash is non-empty and the parsed
stored hash_mtime equals the current modification time, needs_hash is
false and compute_and_update returns the row unchanged (content_sha1,
phash64 and hash_mtime byte-identical, no hash primitive consulted);
when force is true, needs_hash is true and the hashes are rewritten
unconditionally. -/
theorem C6_fingerprint_idempotent
    (parse : String → Rat) (fmt fmt3 : Rat → String) (isImage : Bool)
    (imgSha imgPh vidSha : String) (dur : Option Rat) (row : Row) (mtime : Rat) :
    (row.content_sha1 ≠ "" → parse row.hash_mtime = mtime →
      needs_hash parse row mtime false = false ∧
      compute_and_update parse fmt fmt3 isImage imgSha imgPh vidSha dur row mtime false
        = row) ∧
    needs_hash parse row mtime true = true ∧
    compute_and_update parse fmt fmt3 true imgSha imgPh vidSha dur row mtime true =
      { row with content_sha1 := imgSha, phash64 := imgPh, hash_mtime := fmt mtime } := by
  refine ⟨?_, rfl, ?_⟩
  · intro h1 h2
    have hn : needs_hash parse row mtime false = false := by
      simp [needs_hash, h1, h2]
    refine ⟨hn, ?_⟩
    simp only [compute_and_update, hn, Bool.false_eq_true, if_false]
  · simp only [compute_and_update, needs_hash, if_true, if_pos]

/-- Witness for C6: a concrete already-hashed row whose stored
modification time matches; the second pass changes nothing. -/
theorem C6_witness :
    (rowM.content_sha1 ≠ "" ∧ parseW rowM.hash_mtime = 5) ∧
    needs_hash parseW rowM 5 false = false ∧
    compute_and_update parseW fmtW fmtW true "s1" "p1" "v1" none rowM 5 false = rowM := by
  have h := (C6_fingerprint_idempotent parseW fmtW fmtW true "s1" "p1" "v1" none rowM 5).1
    (by decide) (by decide)
  exact ⟨⟨by decide, by decide⟩, h.1, h.2⟩

/-- C7.  The Consistency Checker on a store in which some cluster id has
at least two live members with delete_flag false: that cluster
contributes exactly one reported issue, and the final aggregate issue
count is non-zero.  The checker itself is a pure fold over the store (the
source only reads and prints). -/
theorem C7_consistency_violation
    (rows : List Row) (gid : String) (hgid : gid ≠ "")
    (h2 : 2 ≤ (VerifyDedup.clusterRows gid rows).countP
        (fun r => pyLower r.delete_flag == "false")) :
    VerifyDedup.groupIssues gid rows = 1 ∧ 0 < VerifyDedup.check_dedup_groups rows := by
  have hlen : 2 ≤ (VerifyDedup.clusterRows gid rows).length :=
    le_trans h2 (List.countP_le_length _)
  have hgi : VerifyDedup.groupIssues gid rows = 1 := by
    simp only [VerifyDedup.groupIssues]
    split_ifs <;> omega
  refine ⟨hgi, ?_⟩
  have hpos : 0 < (VerifyDedup.clusterRows gid rows).countP
      (fun r => pyLower r.delete_flag == "false") := by omega
  obtain ⟨r, hrmem, _⟩ := List.countP_pos_iff.1 hpos
  have hfa := List.mem_filter.1 hrmem
  have hgidmem : gid ∈ VerifyDedup.gidsOf rows := by
    simp only [VerifyDedup.gidsOf, dedupKeys]
    apply dedupKeysAux_mem _ [] gid ?_ (by simp)
    apply List.mem_filterMap.2
    refine ⟨r, hfa.1, ?_⟩
    have hg : pyStrip r.dedup_group_id = gid := by simpa using hfa.2
    rw [hg]
    simp [hgid]
  have hmm : VerifyDedup.groupIssues gid rows ∈
      (VerifyDedup.gidsOf rows).map (fun g => VerifyDedup.groupIssues g rows) :=
    List.mem_map_of_mem _ hgidmem
  have hle := List.single_le_sum (l :=
      (VerifyDedup.gidsOf rows).map (fun g => VerifyDedup.groupIssues g rows))
    (fun x _ => Nat.zero_le x) _ hmm
  simp only [VerifyDedup.check_dedup_groups]
  omega

/-- Witness for C7: a store with one cluster holding two keepers yields
exactly one violation and a positive aggregate count. -/
theorem C7_witness :
    ("g1" ≠ "" ∧ 2 ≤ (VerifyDedup.clusterRows "g1" rowsV).countP
        (fun r => pyLower r.delete_flag == "false")) ∧
    VerifyDedup.groupIssues "g1" rowsV = 1 ∧
    0 < VerifyDedup.check_dedup_groups rowsV :=
  ⟨⟨by decide, by decide⟩, C7_consistency_violation rowsV "g1" (by decide) (by decide)⟩

/-- C8.  The Visual Similarity Oracle returns the maximal dissimilarity
255.0 whenever either file is missing, and that value exceeds the
guardrail threshold 3.0, so the comparison can never confirm a deletion. -/
theorem C8_pixel_diff_missing_maximal
    (ex : String → Bool) (inner : String → String → Rat) (a b : String)
    (h : ex a = false ∨ ex b = false) :
    pixel_diff ex inner a b = 255 ∧ PIXEL_DIFF_THRESHOLD < 255 := by
  constructor
  · unfold pixel_diff
    rcases h with h | h <;> simp [h]
  · decide

/-- Witness for C8: with a file system where nothing exists, the oracle
reports 255. -/
theorem C8_witness :
    (exF "a.jpg" = false ∨ exF "b.jpg" = false) ∧
    pixel_diff exF innerHigh "a.jpg" "b.jpg" = 255 :=
  ⟨Or.inl rfl,
   (C8_pixel_diff_missing_maximal exF innerHigh "a.jpg" "b.jpg" (Or.inl rfl)).1⟩

/-- C9.  The Clustering Engine: assign_groups is the concatenation of the
per-cluster blocks; the number of emitted clusters equals the number of
groups whose deduplicated membership has size at least 2; every group of
raw size below 2 is discarded (its deduplicated size is also below 2, so
it is skipped and receives no cluster id); and the i-th emitted cluster,
in allocation order, stamps every member with the sequential zero-padded
id given by gidStr i (group_0000, group_0001, and so on). -/
theorem C9_sequential_cluster_ids
    (toLocal : String → String) (review : String → String → String)
    (grps : List (String × List Row)) :
    assign_groups toLocal review grps = (assign_groups_blocks toLocal review 0 grps).flatten ∧
    (assign_groups_blocks toLocal review 0 grps).length =
      grps.countP (fun g => decide (2 ≤ (uniqBy g.2).length)) ∧
    (∀ g ∈ grps, g.2.length < 2 → (uniqBy g.2).length < 2) ∧
    (∀ i r, r ∈ (assign_groups_blocks toLocal review 0 grps).getD i [] →
      r.dedup_group_id = gidStr i) := by
  refine ⟨assign_groups_aux_eq_flatten grps toLocal review 0,
    assign_groups_blocks_length grps toLocal review 0, ?_, ?_⟩
  · intro g _ hlt
    have h := uniqBy_length_le g.2
    omega
  · intro i r hr
    have h := assign_groups_blocks_gid grps toLocal review 0 i r hr
    simpa using h

/-- Witness for C9: on the concrete one-group input, the keeper of the
first emitted block carries the id group_0000. -/
theorem C9_witness :
    (keeperW ∈ (assign_groups_blocks toLocalW reviewW 0 grpsW).getD 0 []) ∧
    keeperW.dedup_group_id = gidStr 0 ∧ gidStr 0 = "group_0000" :=
  ⟨by decide,
   (C9_sequential_cluster_ids toLocalW reviewW grpsW).2.2.2 0 keeperW (by decide),
   by decide⟩

/-- C10.  The Clustering Engine collapses each fingerprint group by
media_path before the size test: every emitted cluster block has pairwise
distinct media_path values, and a group whose rows all share one
media_path is skipped entirely by assign_groups, however many rows it
holds. -/
theorem C10_media_path_collapse
    (toLocal : String → String) (review : String → String → String)
    (grps : List (String × List Row)) (p : String) :
    (∀ b ∈ assign_groups_blocks toLocal review 0 grps,
      (b.map (fun r => r.media_path)).Nodup) ∧
    (∀ (cnt : Nat) (key : String) (grp : List Row) (rest : List (String × List Row)),
      (∀ r ∈ grp, r.media_path = p) →
      assign_groups_aux toLocal review cnt ((key, grp) :: rest) =
        assign_groups_aux toLocal review cnt rest) := by
  constructor
  · intro b hb
    obtain ⟨g, _, u, us, c, huniq, _, rfl⟩ :=
      assign_groups_blocks_shape grps toLocal review 0 b hb
    have hfun : (fun r : Row => r.media_path) ∘ markRow toLocal (gidStr c) (bestFold u us) review
        = (fun r : Row => r.media_path) := by
      funext s
      exact markRow_media_path toLocal (gidStr c) (bestFold u us) review s
    rw [List.map_map, hfun, ← huniq]
    exact uniqBy_paths_nodup g.2
  · intro cnt key grp rest hall
    have hle : (uniqBy grp).length ≤ 1 := uniqBy_all_eq grp p hall
    simp only [assign_groups_aux]
    rw [if_pos (by omega)]

/-- Witness for C10: the emitted block of the concrete group has distinct
paths, and a two-row group sharing one path is skipped. -/
theorem C10_witness :
    (blockW.map (fun r => r.media_path)).Nodup ∧
    assign_groups_aux toLocalW reviewW 0 [("k1", [rowX1, rowX1])] =
      assign_groups_aux toLocalW reviewW 0 [] :=
  ⟨(C10_media_path_collapse toLocalW reviewW grpsW "a.jpg").1 blockW (by decide),
   (C10_media_path_collapse toLocalW reviewW [] "a.jpg").2 0 "k1" [rowX1, rowX1] [] (by decide)⟩
